import Mathlib

/-!
Verification of the sqlsmith schema layer (pkg/internal/sqlsmith/schema.go).

The Go code is shallowly embedded: queries are modelled as pre-materialised
row lists wrapped in `Except` (a query can fail as a whole, and each row can
fail to decode, mirroring `db.Query` and `rows.Scan` errors); Go maps are
modelled either as association lists (where key presence matters) or as total
functions with pointwise update (where only entry membership matters); the
mutex/randomness discipline is modelled by an explicit event trace.
-/

set_option maxHeartbeats 1000000

namespace SqlSmith

/-- Model of Go `strings.Contains`, via an explicit character-list scan:
`listPrefixOf pat s` holds when `pat` is an initial segment of `s`. -/
def listPrefixOf : List Char → List Char → Bool
  | [], _ => true
  | _ :: _, [] => false
  | a :: as, b :: bs => a == b && listPrefixOf as bs

/-- Whether `pat` occurs as a contiguous sub-list of the second argument. -/
def listContainsSub (pat : List Char) : List Char → Bool
  | [] => pat.isEmpty
  | c :: rest => listPrefixOf pat (c :: rest) || listContainsSub pat rest

/-- Go `strings.Contains s pat`. -/
def strContains (s pat : String) : Bool :=
  listContainsSub pat.data s.data

/-- Lookup in an association list (model of Go map indexing). -/
def assocGet {α β : Type} [DecidableEq α] : List (α × β) → α → Option β
  | [], _ => none
  | (k, v) :: rest, k0 => if k = k0 then some v else assocGet rest k0

/-- Insert/overwrite in an association list (model of Go map assignment). -/
def assocSet {α β : Type} [DecidableEq α] : List (α × β) → α → β → List (α × β)
  | [], k0, v0 => [(k0, v0)]
  | (k, v) :: rest, k0, v0 =>
    if k = k0 then (k0, v0) :: rest else (k, v) :: assocSet rest k0 v0

/-- Pointwise update of a total function (model of Go map assignment when
only entry membership, not key presence, is observed). -/
def updFn {α : Type} {β : Type} [DecidableEq α] (m : α → β) (k : α) (v : β) : α → β :=
  fun x => if x = k then v else m x

/- ## Data model: tables and columns -/

/-- One decoded row of the `information_schema.columns` query issued by
`extractTables` (schema.go lines 99-115). -/
structure ColRow where
  catalog : String
  schema : String
  name : String
  col : String
  typ : String
  computed : Bool
  nullable : Bool
  hidden : Bool
deriving DecidableEq, Repr

/-- `tree.TableName` as built by `tree.NewTableName(catalog, name)`:
a catalog-qualified table identifier. -/
structure TableName where
  catalog : String
  table : String
deriving DecidableEq, Repr

/-- `tree.Nullability`: the code either leaves the zero value or sets
`tree.Null`. -/
inductive Nullability
  | notNull
  | null
deriving DecidableEq, Repr

/-- `tree.ColumnTableDef` restricted to the fields schema.go sets
(the nested `Nullable.Nullability` and `Computed.Computed` are flattened;
the Go field `Type` is rendered `ColType` since `Type` is a Lean keyword). -/
structure ColumnTableDef where
  Name : String
  ColType : String
  Nullability : Nullability
  Computed : Bool
deriving DecidableEq, Repr

/-- `tableRef` from schema.go: a table and its columns. -/
structure tableRef where
  TableName : TableName
  Columns : List ColumnTableDef
deriving DecidableEq, Repr

/-- Modelled from the spec: `typeFromName` is defined in another file of the
sqlsmith package (not part of this excerpt); per the spec it resolves a
textual type name to a semantic type via a lookup table.  We model the
resolved type by its textual name, which is all the claims here observe. -/
def typeFromName (s : String) : String := s

/-- The `tree.ColumnTableDef` built for one retained row
(schema.go lines 162-173). -/
def mkColumn (r : ColRow) : ColumnTableDef :=
  { Name := r.col
    ColType := typeFromName r.typ
    Nullability := if r.nullable then .null else .notNull
    Computed := r.computed }

/-- The `emit` closure of `extractTables` (schema.go lines 130-138): appends a
`tableRef` for the pending group unless its schema is not `public`. -/
def emitTable (lastCatalog lastSchema lastName : String)
    (currentCols : List ColumnTableDef) (tables : List tableRef) : List tableRef :=
  if lastSchema ≠ "public" then tables
  else tables ++ [{ TableName := { catalog := lastCatalog, table := lastName }
                    Columns := currentCols }]

/-- The row loop of `extractTables` (schema.go lines 139-180) on decoded rows:
state is `(firstTime, lastCatalog, lastSchema, lastName, tables, currentCols)`. -/
def extractTablesLoop : List ColRow → Bool → String → String → String →
    List tableRef → List ColumnTableDef → List tableRef
  | [], firstTime, lc, ls, ln, tables, cols =>
    if firstTime then tables else emitTable lc ls ln cols tables
  | r :: rest, firstTime, lc, ls, ln, tables, cols =>
    if r.hidden then
      extractTablesLoop rest firstTime lc ls ln tables cols
    else
      let lc := if firstTime then r.catalog else lc
      let ls := if firstTime then r.schema else ls
      let ln := if firstTime then r.name else ln
      if lc ≠ r.catalog ∨ ls ≠ r.schema ∨ ln ≠ r.name then
        extractTablesLoop rest false r.catalog r.schema r.name
          (emitTable lc ls ln cols tables) [mkColumn r]
      else
        extractTablesLoop rest false r.catalog r.schema r.name
          tables (cols ++ [mkColumn r])

/-- `extractTables` on already-decoded rows (the pure grouping core). -/
def extractTablesRows (rows : List ColRow) : List tableRef :=
  extractTablesLoop rows true "" "" "" [] []

/-- The row loop of `extractTables` with per-row decode results: a
`rows.Scan` failure aborts with that error (schema.go lines 143-145). -/
def extractTablesLoopE : List (Except String ColRow) → Bool → String → String → String →
    List tableRef → List ColumnTableDef → Except String (List tableRef)
  | [], firstTime, lc, ls, ln, tables, cols =>
    .ok (if firstTime then tables else emitTable lc ls ln cols tables)
  | .error e :: _, _, _, _, _, _, _ => .error e
  | .ok r :: rest, firstTime, lc, ls, ln, tables, cols =>
    if r.hidden then
      extractTablesLoopE rest firstTime lc ls ln tables cols
    else
      let lc := if firstTime then r.catalog else lc
      let ls := if firstTime then r.schema else ls
      let ln := if firstTime then r.name else ln
      if lc ≠ r.catalog ∨ ls ≠ r.schema ∨ ln ≠ r.name then
        extractTablesLoopE rest false r.catalog r.schema r.name
          (emitTable lc ls ln cols tables) [mkColumn r]
      else
        extractTablesLoopE rest false r.catalog r.schema r.name
          tables (cols ++ [mkColumn r])

/-- `extractTables` (schema.go lines 98-182): the column-metadata query either
fails as a whole (`db.Query` error) or yields a list of per-row decode
results. -/
def extractTables (q : Except String (List (Except String ColRow))) :
    Except String (List tableRef) :=
  match q with
  | .error e => .error e
  | .ok rows => extractTablesLoopE rows true "" "" "" [] []

/- ## Data model: indexes -/

/-- One decoded row of the per-table `SHOW INDEXES` query
(schema.go line 191). -/
structure IdxRow where
  idx : String
  col : String
  storing : Bool
  ascending : Bool
deriving DecidableEq, Repr

/-- `tree.Direction` as set by schema.go (either `tree.Ascending` or
`tree.Descending`). -/
inductive Direction
  | ascending
  | descending
deriving DecidableEq, Repr

/-- `tree.IndexElem`: one key column of an index with its direction. -/
structure IndexElem where
  Column : String
  Direction : Direction
deriving DecidableEq, Repr

/-- `tree.CreateIndex` restricted to the fields schema.go sets. -/
structure CreateIndex where
  Name : String
  Table : TableName
  Columns : List IndexElem
  Storing : List String
deriving DecidableEq, Repr

/-- One step of the inner row loop of `extractIndexes`
(schema.go lines 202-220) on a decoded row: create the entry on first sight
of the index name, then append the column to `Storing` or `Columns`. -/
def indexRowStep (tbl : TableName) (indexes : List (String × CreateIndex))
    (r : IdxRow) : List (String × CreateIndex) :=
  let indexes :=
    match assocGet indexes r.idx with
    | some _ => indexes
    | none => assocSet indexes r.idx
        { Name := r.idx, Table := tbl, Columns := [], Storing := [] }
  let create := (assocGet indexes r.idx).getD
      { Name := r.idx, Table := tbl, Columns := [], Storing := [] }
  let create :=
    if r.storing then
      { create with Storing := create.Storing ++ [r.col] }
    else
      let dir := if r.ascending then Direction.ascending else Direction.descending
      { create with Columns := create.Columns ++ [{ Column := r.col, Direction := dir }] }
  assocSet indexes r.idx create

/-- The inner row loop of `extractIndexes` on decoded rows (pure core). -/
def buildIndexesLoop (tbl : TableName) :
    List IdxRow → List (String × CreateIndex) → List (String × CreateIndex)
  | [], indexes => indexes
  | r :: rest, indexes => buildIndexesLoop tbl rest (indexRowStep tbl indexes r)

/-- The inner row loop of `extractIndexes` with per-row decode results:
a `rows.Scan` failure aborts with that error (schema.go lines 198-201). -/
def extractIndexesRowsLoop (tbl : TableName) :
    List (Except String IdxRow) → List (String × CreateIndex) →
    Except String (List (String × CreateIndex))
  | [], indexes => .ok indexes
  | .error e :: _, _ => .error e
  | .ok r :: rest, indexes => extractIndexesRowsLoop tbl rest (indexRowStep tbl indexes r)

/-- The per-table loop of `extractIndexes` (schema.go lines 189-227):
a failing query or row aborts the whole call; on success the table's entry is
unconditionally written into the catalog (`ret[*t.TableName] = indexes`). -/
def extractIndexesGo (q : TableName → Except String (List (Except String IdxRow))) :
    List tableRef → List (TableName × List (String × CreateIndex)) →
    Except String (List (TableName × List (String × CreateIndex)))
  | [], ret => .ok ret
  | t :: rest, ret =>
    match q t.TableName with
    | .error e => .error e
    | .ok rows =>
      match extractIndexesRowsLoop t.TableName rows [] with
      | .error e => .error e
      | .ok indexes => extractIndexesGo q rest (assocSet ret t.TableName indexes)

/-- `extractIndexes` (schema.go lines 184-229). -/
def extractIndexes (q : TableName → Except String (List (Except String IdxRow)))
    (tables : List tableRef) :
    Except String (List (TableName × List (String × CreateIndex))) :=
  extractIndexesGo q tables []

/- ## The Smither schema cache -/

/-- Model of the database handle: the two queries `ReloadSchemas` issues,
pre-materialised. -/
structure DBModel where
  colQuery : Except String (List (Except String ColRow))
  idxQuery : TableName → Except String (List (Except String IdxRow))

/-- The schema-cache slice of `Smither`: connection, current tables, current
index catalog, and the randomness source (modelled as a function giving the
result of `rnd.Intn n`, used modulo `n`). -/
structure Smither where
  db : Option DBModel
  tables : List tableRef
  indexes : List (TableName × List (String × CreateIndex))
  rndf : Nat → Nat

/-- `Smither.ReloadSchemas` (schema.go lines 42-55).  Note the Go code assigns
`s.tables, err = extractTables(s.db)` before checking `err`, so a failed
column query leaves `s.tables = nil`; likewise a failed index query leaves
`s.tables` already replaced and `s.indexes = nil`. -/
def ReloadSchemas (s : Smither) : Smither × Option String :=
  match s.db with
  | none => (s, none)
  | some db =>
    match extractTables db.colQuery with
    | .error e => ({ s with tables := [] }, some e)
    | .ok tables =>
      match extractIndexes db.idxQuery tables with
      | .error e => ({ s with tables := tables, indexes := [] }, some e)
      | .ok idxs => ({ s with tables := tables, indexes := idxs }, none)

/-- Lock/randomness events emitted by the pick operations, in program order:
`RLock`/`RUnlock` are the shared-lock calls, `lockW`/`unlockW` the exclusive
ones, `rndAccess` a read of `s.rnd`. -/
inductive Event
  | rlockE
  | runlockE
  | lockW
  | unlockW
  | rndAccess
deriving DecidableEq, Repr

/-- A default `tableRef` for (unreachable) out-of-range list indexing. -/
def tableRefDflt : tableRef :=
  { TableName := { catalog := "", table := "" }, Columns := [] }

/-- A default `CreateIndex` for (unreachable) missing-key map lookups. -/
def createIndexDflt : CreateIndex :=
  { Name := "", Table := { catalog := "", table := "" }, Columns := [], Storing := [] }

/-- `Smither.getRandTable` (schema.go lines 57-64), with its event trace:
RLock, a possible `s.rnd.Intn` read, RUnlock (the deferred unlock runs last). -/
def getRandTable (s : Smither) : Option tableRef × List Event :=
  if s.tables.length = 0 then
    (none, [.rlockE, .runlockE])
  else
    (some (s.tables.getD (s.rndf s.tables.length % s.tables.length) tableRefDflt),
      [.rlockE, .rndAccess, .runlockE])

/-- `Smither.getIndexes` (schema.go lines 66-70): returns the table's entry of
the index catalog (`nil`, i.e. empty, when absent) after releasing the shared
lock. -/
def getIndexes (s : Smither) (table : TableName) :
    List (String × CreateIndex) × List Event :=
  ((assocGet s.indexes table).getD [], [.rlockE, .runlockE])

/-- `tree.TableIndexName` as built by schema.go. -/
structure TableIndexName where
  Table : TableName
  Index : String
deriving DecidableEq, Repr

/-- `Smither.getRandTableIndex` (schema.go lines 72-88), with its event trace.
Note the `s.rnd.Intn` read happens after `getIndexes` already released the
shared lock. -/
def getRandTableIndex (s : Smither) (table : TableName) :
    Option (TableIndexName × CreateIndex) × List Event :=
  let res := getIndexes s table
  let indexes := res.1
  if indexes.length = 0 then
    (none, res.2)
  else
    let names := indexes.map (fun p => p.1)
    let idx := (assocGet indexes
        (names.getD (s.rndf names.length % names.length) "")).getD createIndexDflt
    (some ({ Table := table, Index := idx.Name }, idx), res.2 ++ [.rndAccess])

/-- `Smither.getRandIndex` (schema.go lines 90-96). -/
def getRandIndex (s : Smither) : Option (TableIndexName × CreateIndex) × List Event :=
  let res := getRandTable s
  match res.1 with
  | none => (none, res.2)
  | some t =>
    let res2 := getRandTableIndex s t.TableName
    (res2.1, res.2 ++ res2.2)

/-- Whether every `rndAccess` event of a trace happens at positive lock depth
(depth counts shared and exclusive acquisitions alike). -/
def rndLockedAux : List Event → Int → Bool
  | [], _ => true
  | e :: rest, d =>
    match e with
    | .rlockE => rndLockedAux rest (d + 1)
    | .lockW => rndLockedAux rest (d + 1)
    | .runlockE => rndLockedAux rest (d - 1)
    | .unlockW => rndLockedAux rest (d - 1)
    | .rndAccess => decide (0 < d) && rndLockedAux rest d

/-- Whether every randomness access in the trace occurs while a lock is held. -/
def rndAccessesLocked (tr : List Event) : Bool :=
  rndLockedAux tr 0

/- ## The static operator catalog -/

/-- A semantic type of the AST library (`types.T`), with the two observations
schema.go makes of it: its semantic category (`SemanticType`) and its oid
(`Oid()`), both modelled as naturals. -/
structure Typ where
  SemanticType : Nat
  oid : Nat
deriving DecidableEq, Repr

/-- `tree.BinOp` restricted to the fields schema.go observes. -/
structure BinOp where
  LeftType : Typ
  RightType : Typ
  ReturnType : Typ
deriving DecidableEq, Repr

/-- The `operator` struct of schema.go (lines 231-234); `tree.BinaryOperator`
is an enum, modelled as a natural. -/
structure operator where
  BinOp : BinOp
  Operator : Nat
deriving DecidableEq, Repr

/-- The inner loop of the `operators` initialiser (schema.go lines 239-245):
append each overload under its own return type's oid. -/
def operatorsInner (sym : Nat) : List BinOp → (Nat → List operator) → (Nat → List operator)
  | [], m => m
  | bo :: rest, m =>
    operatorsInner sym rest
      (updFn m bo.ReturnType.oid (m bo.ReturnType.oid ++ [{ BinOp := bo, Operator := sym }]))

/-- The outer loop of the `operators` initialiser over `tree.BinOps`. -/
def operatorsOuter : List (Nat × List BinOp) → (Nat → List operator) → (Nat → List operator)
  | [], m => m
  | (sym, ovs) :: rest, m => operatorsOuter rest (operatorsInner sym ovs m)

/-- The `operators` catalog (schema.go lines 236-248), parameterised by the
(externally defined) registry `tree.BinOps`, given in some iteration order. -/
def operators (binOps : List (Nat × List BinOp)) : Nat → List operator :=
  operatorsOuter binOps (fun _ => [])

/-- All overloads of the registry paired with their operator symbol, in
registry order. -/
def allOps (binOps : List (Nat × List BinOp)) : List operator :=
  binOps.flatMap (fun p => p.2.map (fun bo => { BinOp := bo, Operator := p.1 }))

/- ## The static function catalog -/

/-- `tree.Overload` restricted to the fields schema.go observes
(`FixedReturnType()` is modelled as a field). -/
structure Overload where
  Info : String
  FixedReturnType : Typ
deriving DecidableEq, Repr

/-- `tree.FunctionDefinition` restricted to the fields schema.go observes;
`FunctionClass` is an enum, modelled as a natural. -/
structure FunctionDefinition where
  Name : String
  Class : Nat
  Category : String
  Private : Bool
  Definition : List Overload
deriving DecidableEq, Repr

/-- The `function` struct of schema.go (lines 250-253); the Go field `def` is
rendered `fdef` since `def` is a Lean keyword. -/
structure function where
  fdef : FunctionDefinition
  overload : Overload
deriving DecidableEq, Repr

/-- Whether an overload's fixed return type has the semantic category of some
member of `types.AnyNonArray` (schema.go lines 281-290). -/
def overloadTypeOK (anyNonArray : List Typ) (ov : Overload) : Bool :=
  anyNonArray.any (fun t => ov.FixedReturnType.SemanticType == t.SemanticType)

/-- The overload loop of the `functions` initialiser (schema.go lines
275-295): skip overloads documented "Not usable" and overloads whose return
type is outside the allowed non-array set; append survivors under the return
type's oid. -/
def functionsOvs (d : FunctionDefinition) (anyNonArray : List Typ) :
    List Overload → (Nat → List function) → (Nat → List function)
  | [], inner => inner
  | ov :: rest, inner =>
    if strContains ov.Info "Not usable" then
      functionsOvs d anyNonArray rest inner
    else if overloadTypeOK anyNonArray ov then
      functionsOvs d anyNonArray rest
        (updFn inner ov.FixedReturnType.oid
          (inner ov.FixedReturnType.oid ++ [{ fdef := d, overload := ov }]))
    else
      functionsOvs d anyNonArray rest inner

/-- The definition loop of the `functions` initialiser (schema.go lines
257-296).  The creation of an empty per-class map before the Compatibility
check (lines 265-267) is invisible in the total-function model of the map and
is therefore omitted. -/
def functionsDefs (anyNonArray : List Typ) :
    List FunctionDefinition → (Nat → Nat → List function) → (Nat → Nat → List function)
  | [], m => m
  | d :: rest, m =>
    if d.Name = "pg_sleep" then
      functionsDefs anyNonArray rest m
    else if strContains d.Name "crdb_internal.force_" then
      functionsDefs anyNonArray rest m
    else if d.Category = "Compatibility" then
      functionsDefs anyNonArray rest m
    else if d.Private then
      functionsDefs anyNonArray rest m
    else
      functionsDefs anyNonArray rest
        (updFn m d.Class (functionsOvs d anyNonArray d.Definition (m d.Class)))

/-- The `functions` catalog (schema.go lines 255-298), parameterised by the
(externally defined) registry `tree.FunDefs` in some iteration order and by
the allowed type set `types.AnyNonArray`. -/
def functions (defs : List FunctionDefinition) (anyNonArray : List Typ) :
    Nat → Nat → List function :=
  functionsDefs anyNonArray defs (fun _ _ => [])

/- ## Run decomposition of a row stream (for the grouping claims) -/

/-- The grouping key of a column row: `(catalog, schema, table)`. -/
def rkey (r : ColRow) : String × String × String :=
  (r.catalog, r.schema, r.name)

/-- The per-row payload of a run: the fields that vary within one table. -/
structure ColSpec where
  col : String
  typ : String
  computed : Bool
  nullable : Bool
deriving DecidableEq, Repr

/-- One contiguous run of non-hidden rows sharing a grouping key. -/
structure Run where
  catalog : String
  schema : String
  tname : String
  cols : List ColSpec
deriving DecidableEq, Repr

/-- The grouping key of a run. -/
def Run.key (g : Run) : String × String × String :=
  (g.catalog, g.schema, g.tname)

/-- The input row a run's column spec denotes (visible, `hidden = false`). -/
def specRow (g : Run) (c : ColSpec) : ColRow :=
  { catalog := g.catalog, schema := g.schema, name := g.tname
    col := c.col, typ := c.typ, computed := c.computed
    nullable := c.nullable, hidden := false }

/-- The rows of a run. -/
def Run.rows (g : Run) : List ColRow :=
  g.cols.map (specRow g)

/-- The flattened row stream of a list of runs. -/
def runsRows (runs : List Run) : List ColRow :=
  runs.flatMap Run.rows

/-- The `tableRef` a run should produce: the run's table identifier with one
column per spec, in run order. -/
def runTable (g : Run) : tableRef :=
  { TableName := { catalog := g.catalog, table := g.tname }
    Columns := g.cols.map (fun c => mkColumn (specRow g c)) }

/- ## Concrete fixtures -/

/-- A visible `public` column row for table `t1`. -/
def colRowT1 : ColRow :=
  { catalog := "db", schema := "public", name := "t1", col := "a", typ := "int4"
    computed := false, nullable := false, hidden := false }

/-- The `tableRef` produced for `colRowT1`. -/
def tableRefT1 : tableRef :=
  { TableName := { catalog := "db", table := "t1" }, Columns := [mkColumn colRowT1] }

/-- The identifier of table `t1`. -/
def tableNameT1 : TableName := { catalog := "db", table := "t1" }

/-- A database model whose column query succeeds (yielding `t1`) and whose
per-table index query always fails. -/
def dbFailIdx : DBModel :=
  { colQuery := .ok [.ok colRowT1]
    idxQuery := fun _ => .error "boom" }

/-- A cache, initially empty, connected to `dbFailIdx`. -/
def smitherFailIdx : Smither :=
  { db := some dbFailIdx, tables := [], indexes := [], rndf := fun _ => 0 }

/-- A cache with no tables. -/
def smitherNoTables : Smither :=
  { db := none, tables := [], indexes := [], rndf := fun _ => 0 }

/-- A cache with one table (`t1`) that has no indexes. -/
def smitherNoIndexes : Smither :=
  { db := none, tables := [tableRefT1], indexes := [], rndf := fun _ => 0 }

/-- An index `i1` on `t1`. -/
def idxI1 : CreateIndex :=
  { Name := "i1", Table := tableNameT1
    Columns := [{ Column := "a", Direction := .ascending }], Storing := [] }

/-- A cache with one table (`t1`) carrying one index (`i1`). -/
def smitherOneIndex : Smither :=
  { db := none, tables := [tableRefT1]
    indexes := [(tableNameT1, [("i1", idxI1)])], rndf := fun _ => 0 }

/-- An index-query model returning zero rows for every table. -/
def idxQueryEmpty : TableName → Except String (List (Except String IdxRow)) :=
  fun _ => .ok []

/- ## C1: atomicity of ReloadSchemas -/

/-- C1 (counterexample): `ReloadSchemas` is not atomic.  On `smitherFailIdx`
the column query succeeds but the index query fails; the failed call returns
an error yet has already replaced the cache's table list. -/
theorem reloadSchemas_not_atomic :
    (ReloadSchemas smitherFailIdx).2 = some "boom" ∧
    (ReloadSchemas smitherFailIdx).1.tables ≠ smitherFailIdx.tables := by
  constructor
  · rfl
  · decide

/-- C1 (amended): when `Refresh` fails, the state changes partially: a failed
column query (or column-row decode) clears the table list to empty and keeps
the prior index catalog; a failed per-table index query (or index-row decode)
replaces the table list with the newly extracted tables and clears the index
catalog to empty; the error is returned in both cases. -/
theorem reloadSchemas_failure_state (s : Smither) (db : DBModel)
    (hdb : s.db = some db) :
    (∀ e, extractTables db.colQuery = .error e →
      ReloadSchemas s = ({ s with tables := [] }, some e)) ∧
    (∀ tbls e, extractTables db.colQuery = .ok tbls →
      extractIndexes db.idxQuery tbls = .error e →
      ReloadSchemas s = ({ s with tables := tbls, indexes := [] }, some e)) := by
  constructor
  · intro e he
    simp [ReloadSchemas, hdb, he]
  · intro tbls e h1 h2
    simp [ReloadSchemas, hdb, h1, h2]

/-- Witness for `reloadSchemas_failure_state` at the concrete cache
`smitherFailIdx`. -/
theorem reloadSchemas_failure_state_witness :
    ReloadSchemas smitherFailIdx =
      ({ smitherFailIdx with tables := [tableRefT1], indexes := [] }, some "boom") :=
  (reloadSchemas_failure_state smitherFailIdx dbFailIdx rfl).2 [tableRefT1] "boom" rfl rfl

/- ## C2: distinguishability of getRandIndex outcomes -/

/-- C2 (counterexample): "no tables" and "no indexes on the chosen table" are
NOT distinguishable outcomes of `getRandIndex`: on a cache with no tables and
on a cache whose only table has no indexes, the returned value is the same
`none` (Go: `nil, nil, false`). -/
theorem getRandIndex_outcomes_indistinguishable :
    smitherNoTables.tables = [] ∧
    smitherNoIndexes.tables ≠ [] ∧
    (assocGet smitherNoIndexes.indexes tableNameT1).getD [] = [] ∧
    (getRandIndex smitherNoTables).1 = none ∧
    (getRandIndex smitherNoIndexes).1 = none ∧
    (getRandIndex smitherNoTables).1 = (getRandIndex smitherNoIndexes).1 := by
  refine ⟨rfl, by decide, rfl, rfl, rfl, rfl⟩

/-- C2 (amended): both the "no tables" case and the "no indexes anywhere for
the chosen table" case make `getRandIndex` return the same not-found value
`none`; a caller cannot tell the two apart from the return value. -/
theorem getRandIndex_none_cases (s s2 : Smither)
    (h : s.tables = [])
    (h2 : ∀ tn, (assocGet s2.indexes tn).getD [] = []) :
    (getRandIndex s).1 = none ∧ (getRandIndex s2).1 = none ∧
    (getRandIndex s).1 = (getRandIndex s2).1 := by
  have hs : (getRandIndex s).1 = none := by
    simp [getRandIndex, getRandTable, h]
  have hs2 : (getRandIndex s2).1 = none := by
    by_cases hl : s2.tables.length = 0
    · simp [getRandIndex, getRandTable, hl]
    · simp [getRandIndex, getRandTable, hl, getRandTableIndex, getIndexes, h2]
  exact ⟨hs, hs2, by rw [hs, hs2]⟩

/-- Witness for `getRandIndex_none_cases` at the concrete caches
`smitherNoTables` and `smitherNoIndexes`. -/
theorem getRandIndex_none_cases_witness :
    (getRandIndex smitherNoTables).1 = none ∧
    (getRandIndex smitherNoIndexes).1 = none ∧
    (getRandIndex smitherNoTables).1 = (getRandIndex smitherNoIndexes).1 :=
  getRandIndex_none_cases smitherNoTables smitherNoIndexes rfl (fun _ => rfl)

/- ## C3 (counterexample): zero-row tables are not omitted -/

/-- C3 (counterexample): a table whose index query succeeds with zero rows is
NOT omitted from the catalog: `extractIndexes` unconditionally writes the
table's (empty) entry, so the key is present. -/
theorem extractIndexes_zero_rows_entry :
    extractIndexes idxQueryEmpty [tableRefT1] = .ok [(tableNameT1, [])] ∧
    assocGet [(tableNameT1, ([] : List (String × CreateIndex)))] tableNameT1 ≠ none := by
  constructor
  · rfl
  · decide

/- ## C9: randomness accessed outside the lock -/

/-- C9: the locking discipline for the randomness source is violated:
`getRandTable` does read `s.rnd` under the shared lock, but
`getRandTableIndex` (and hence `getRandIndex`) reads `s.rnd` after
`getIndexes` has already released the shared lock, so that access happens at
lock depth zero. -/
theorem rndAccess_after_unlock :
    rndAccessesLocked (getRandTable smitherOneIndex).2 = true ∧
    rndAccessesLocked (getRandTableIndex smitherOneIndex tableNameT1).2 = false ∧
    rndAccessesLocked (getRandIndex smitherOneIndex).2 = false := by
  refine ⟨rfl, rfl, rfl⟩

/- ## C7: the operator catalog -/

/-- Specification of the inner operator loop: the per-oid list is extended by
exactly the overloads of this symbol whose return type has that oid. -/
theorem operatorsInner_spec (sym : Nat) (ovs : List BinOp)
    (m : Nat → List operator) (k : Nat) :
    operatorsInner sym ovs m k =
      m k ++ (ovs.map (fun bo => ({ BinOp := bo, Operator := sym } : operator))).filter
        (fun o => o.BinOp.ReturnType.oid == k) := by
  induction ovs generalizing m with
  | nil => simp [operatorsInner]
  | cons bo rest ih =>
    simp only [operatorsInner, ih, List.map_cons, List.filter_cons]
    by_cases hk : bo.ReturnType.oid = k
    · simp [updFn, hk]
    · simp [updFn, hk, Ne.symm hk]

/-- Specification of the outer operator loop. -/
theorem operatorsOuter_spec (binOps : List (Nat × List BinOp))
    (m : Nat → List operator) (k : Nat) :
    operatorsOuter binOps m k =
      m k ++ (allOps binOps).filter (fun o => o.BinOp.ReturnType.oid == k) := by
  induction binOps generalizing m with
  | nil => simp [operatorsOuter, allOps]
  | cons p rest ih =>
    cases p with
    | mk sym ovs =>
      simp only [operatorsOuter, ih, operatorsInner_spec, allOps, List.flatMap_cons,
        List.filter_append, List.append_assoc]

/-- C7: the operator catalog at each return-type oid is exactly the list of
all registry overloads (each paired with its operator symbol) whose own
return type has that oid, in registry order — every overload appears exactly
once, keyed by its own return type, with no filtering. -/
theorem operators_complete_by_return_type (binOps : List (Nat × List BinOp)) (k : Nat) :
    operators binOps k =
      (allOps binOps).filter (fun o => o.BinOp.ReturnType.oid == k) := by
  simp [operators, operatorsOuter_spec]

/- ## Hidden-row lemmas (C8, C10) -/

/-- Membership in the result of `emitTable`: either an old table or the newly
emitted one. -/
theorem mem_emitTable (lc ls ln : String) (cc : List ColumnTableDef)
    (tb : List tableRef) (t : tableRef) (h : t ∈ emitTable lc ls ln cc tb) :
    t ∈ tb ∨ t = { TableName := { catalog := lc, table := ln }, Columns := cc } := by
  unfold emitTable at h
  split at h
  · exact Or.inl h
  · rcases List.mem_append.mp h with h2 | h2
    · exact Or.inl h2
    · exact Or.inr (List.mem_singleton.mp h2)

/-- The grouping loop ignores hidden rows: running it on a row list equals
running it on the list with hidden rows filtered out. -/
theorem extractTablesLoop_filter_hidden (rows : List ColRow) :
    ∀ (ft : Bool) (lc ls ln : String) (tb : List tableRef) (cc : List ColumnTableDef),
      extractTablesLoop rows ft lc ls ln tb cc =
        extractTablesLoop (rows.filter (fun r => !r.hidden)) ft lc ls ln tb cc := by
  induction rows with
  | nil => intro ft lc ls ln tb cc; rfl
  | cons r rest ih =>
    intro ft lc ls ln tb cc
    by_cases hr : r.hidden = true
    · simp only [extractTablesLoop, hr, if_true, List.filter_cons, Bool.not_true,
        Bool.false_eq_true, if_false]
      exact ih ft lc ls ln tb cc
    · have hr' : r.hidden = false := by simpa using hr
      simp only [extractTablesLoop, hr', List.filter_cons, Bool.not_false, if_true,
        Bool.false_eq_true, if_false]
      split <;> split <;> exact ih ..

/-- Column provenance: if every table already collected, every pending column,
and every visible remaining row satisfy `P` (after `mkColumn`), then every
column of every emitted table satisfies `P`. -/
theorem extractTablesLoop_cols_P (P : ColumnTableDef → Prop) (rows : List ColRow) :
    ∀ (ft : Bool) (lc ls ln : String) (tb : List tableRef) (cc : List ColumnTableDef),
      (∀ t ∈ tb, ∀ c ∈ t.Columns, P c) →
      (∀ c ∈ cc, P c) →
      (∀ r ∈ rows, r.hidden = false → P (mkColumn r)) →
      ∀ t ∈ extractTablesLoop rows ft lc ls ln tb cc, ∀ c ∈ t.Columns, P c := by
  induction rows with
  | nil =>
    intro ft lc ls ln tb cc htb hcc _ t ht
    by_cases hftv : ft = true
    · subst hftv
      simp only [extractTablesLoop, if_true] at ht
      exact htb t ht
    · have hftf : ft = false := by simpa using hftv
      subst hftf
      simp only [extractTablesLoop, Bool.false_eq_true, if_false] at ht
      rcases mem_emitTable lc ls ln cc tb t ht with h | h
      · exact htb t h
      · intro c hc
        rw [h] at hc
        exact hcc c hc
  | cons r rest ih =>
    intro ft lc ls ln tb cc htb hcc hrows t ht
    by_cases hr : r.hidden = true
    · simp only [extractTablesLoop, hr, if_true] at ht
      exact ih ft lc ls ln tb cc htb hcc
        (fun r2 h2 => hrows r2 (List.mem_cons_of_mem r h2)) t ht
    · have hr' : r.hidden = false := by simpa using hr
      have hPr : P (mkColumn r) := hrows r (List.mem_cons_self r rest) hr'
      have hrows' : ∀ r2 ∈ rest, r2.hidden = false → P (mkColumn r2) :=
        fun r2 h2 => hrows r2 (List.mem_cons_of_mem r h2)
      have hboundary : ∀ (lc2 ls2 ln2 : String),
          (∀ t2 ∈ emitTable lc2 ls2 ln2 cc tb, ∀ c ∈ t2.Columns, P c) := by
        intro lc2 ls2 ln2 t2 ht2 c hc
        rcases mem_emitTable lc2 ls2 ln2 cc tb t2 ht2 with h | h
        · exact htb t2 h c hc
        · rw [h] at hc
          exact hcc c hc
      have hsingle : ∀ c ∈ [mkColumn r], P c := by
        intro c hc
        rw [List.mem_singleton.mp hc]
        exact hPr
      have happ : ∀ c ∈ cc ++ [mkColumn r], P c := by
        intro c hc
        rcases List.mem_append.mp hc with h | h
        · exact hcc c h
        · rw [List.mem_singleton.mp h]
          exact hPr
      simp only [extractTablesLoop, hr', Bool.false_eq_true, if_false] at ht
      split at ht <;> split at ht
      · exact ih false r.catalog r.schema r.name _ _ (hboundary _ _ _) hsingle hrows' t ht
      · exact ih false r.catalog r.schema r.name tb (cc ++ [mkColumn r]) htb happ hrows' t ht
      · exact ih false r.catalog r.schema r.name _ _ (hboundary _ _ _) hsingle hrows' t ht
      · exact ih false r.catalog r.schema r.name tb (cc ++ [mkColumn r]) htb happ hrows' t ht

/-- Name provenance: if every table already collected, the pending group's
key, and every visible remaining row's key satisfy `P`, then every emitted
table's name satisfies `P`. -/
theorem extractTablesLoop_names_P (P : TableName → Prop) (rows : List ColRow) :
    ∀ (ft : Bool) (lc ls ln : String) (tb : List tableRef) (cc : List ColumnTableDef),
      (∀ t ∈ tb, P t.TableName) →
      (ft = false → P { catalog := lc, table := ln }) →
      (∀ r ∈ rows, r.hidden = false → P { catalog := r.catalog, table := r.name }) →
      ∀ t ∈ extractTablesLoop rows ft lc ls ln tb cc, P t.TableName := by
  induction rows with
  | nil =>
    intro ft lc ls ln tb cc htb hft _ t ht
    by_cases hftv : ft = true
    · subst hftv
      simp only [extractTablesLoop, if_true] at ht
      exact htb t ht
    · have hftf : ft = false := by simpa using hftv
      subst hftf
      simp only [extractTablesLoop, Bool.false_eq_true, if_false] at ht
      rcases mem_emitTable lc ls ln cc tb t ht with h | h
      · exact htb t h
      · rw [h]
        exact hft rfl
  | cons r rest ih =>
    intro ft lc ls ln tb cc htb hft hrows t ht
    by_cases hr : r.hidden = true
    · simp only [extractTablesLoop, hr, if_true] at ht
      exact ih ft lc ls ln tb cc htb hft
        (fun r2 h2 => hrows r2 (List.mem_cons_of_mem r h2)) t ht
    · have hr' : r.hidden = false := by simpa using hr
      have hPr : P { catalog := r.catalog, table := r.name } :=
        hrows r (List.mem_cons_self r rest) hr'
      have hrows' : ∀ r2 ∈ rest, r2.hidden = false →
          P { catalog := r2.catalog, table := r2.name } :=
        fun r2 h2 => hrows r2 (List.mem_cons_of_mem r h2)
      simp only [extractTablesLoop, hr', Bool.false_eq_true, if_false] at ht
      by_cases hftv : ft = true
      · subst hftv
        simp only [if_true] at ht
        have hcond : ¬(r.catalog ≠ r.catalog ∨ r.schema ≠ r.schema ∨ r.name ≠ r.name) := by
          simp
        rw [if_neg hcond] at ht
        exact ih false r.catalog r.schema r.name tb (cc ++ [mkColumn r]) htb
          (fun _ => hPr) hrows' t ht
      · have hftf : ft = false := by simpa using hftv
        subst hftf
        simp only [Bool.false_eq_true, if_false] at ht
        split at ht
        · refine ih false r.catalog r.schema r.name _ [mkColumn r] ?_ (fun _ => hPr) hrows' t ht
          intro t2 ht2
          rcases mem_emitTable lc ls ln cc tb t2 ht2 with h | h
          · exact htb t2 h
          · rw [h]
            exact hft rfl
        · exact ih false r.catalog r.schema r.name tb (cc ++ [mkColumn r]) htb
            (fun _ => hPr) hrows' t ht

/-- `extractTables` only depends on the visible rows. -/
theorem extractTablesRows_filter_hidden (rows : List ColRow) :
    extractTablesRows rows = extractTablesRows (rows.filter (fun r => !r.hidden)) :=
  extractTablesLoop_filter_hidden rows true "" "" "" [] []

/-- C8: hidden rows are dropped before grouping.  `extractTables` on a row
stream equals `extractTables` on the stream with hidden rows removed, and
every column of every emitted table stems from some visible input row. -/
theorem hidden_rows_never_contribute (rows : List ColRow) :
    extractTablesRows rows = extractTablesRows (rows.filter (fun r => !r.hidden)) ∧
    ∀ t ∈ extractTablesRows rows, ∀ c ∈ t.Columns,
      ∃ r ∈ rows, r.hidden = false ∧ c = mkColumn r := by
  constructor
  · exact extractTablesRows_filter_hidden rows
  · exact extractTablesLoop_cols_P
      (fun c => ∃ r ∈ rows, r.hidden = false ∧ c = mkColumn r)
      rows true "" "" "" [] []
      (by intro t ht; exact absurd ht (List.not_mem_nil t))
      (by intro c hc; exact absurd hc (List.not_mem_nil c))
      (fun r hr hh => ⟨r, hr, hh, rfl⟩)

/-- C10: a contiguous all-hidden run contributes nothing: the output equals
the output with the run absent, and if the run's table key occurs on no
visible row elsewhere, no `tableRef` with that name is emitted at all. -/
theorem allHidden_run_vanishes (xs bs ys : List ColRow) (cat nm : String)
    (hb : ∀ r ∈ bs, r.hidden = true) :
    extractTablesRows (xs ++ bs ++ ys) = extractTablesRows (xs ++ ys) ∧
    ((∀ r ∈ xs ++ ys, r.hidden = false →
        ({ catalog := r.catalog, table := r.name } : TableName) ≠
          { catalog := cat, table := nm }) →
      ∀ t ∈ extractTablesRows (xs ++ bs ++ ys),
        t.TableName ≠ { catalog := cat, table := nm }) := by
  have hbs : bs.filter (fun r => !r.hidden) = [] := by
    rw [List.filter_eq_nil_iff]
    intro r hr
    simp [hb r hr]
  have heq : extractTablesRows (xs ++ bs ++ ys) = extractTablesRows (xs ++ ys) := by
    rw [extractTablesRows_filter_hidden (xs ++ bs ++ ys),
      extractTablesRows_filter_hidden (xs ++ ys)]
    rw [List.filter_append, List.filter_append, List.filter_append, hbs,
      List.append_nil]
  refine ⟨heq, fun hk => ?_⟩
  refine extractTablesLoop_names_P
    (fun n => n ≠ { catalog := cat, table := nm })
    (xs ++ bs ++ ys) true "" "" "" [] []
    (by intro t ht; exact absurd ht (List.not_mem_nil t))
    (by intro h; exact absurd h (by simp))
    ?_
  intro r hr hh
  rcases List.mem_append.mp hr with hxy | hy
  · rcases List.mem_append.mp hxy with hx | hbmem
    · exact hk r (List.mem_append.mpr (Or.inl hx)) hh
    · rw [hb r hbmem] at hh
      exact absurd hh (by simp)
  · exact hk r (List.mem_append.mpr (Or.inr hy)) hh

/-- A `public` row for a second table `t2` that is hidden. -/
def hiddenRowT2 : ColRow :=
  { catalog := "db", schema := "public", name := "t2", col := "z", typ := "int4"
    computed := false, nullable := false, hidden := true }

/-- Witness for `allHidden_run_vanishes`: with a visible `t1` run followed by
an all-hidden `t2` run, the output equals the output without the `t2` run. -/
theorem allHidden_run_vanishes_witness :
    extractTablesRows ([colRowT1] ++ [hiddenRowT2] ++ []) =
      extractTablesRows ([colRowT1] ++ []) :=
  (allHidden_run_vanishes [colRowT1] [hiddenRowT2] [] "db" "t2" (by decide)).1

/- ## Run-grouping lemmas (C4) -/

/-- `emitTable` in append form. -/
theorem emitTable_eq (lc ls ln : String) (cc : List ColumnTableDef) (tb : List tableRef) :
    emitTable lc ls ln cc tb =
      tb ++ (if ls = "public" then
        [{ TableName := { catalog := lc, table := ln }, Columns := cc }] else []) := by
  unfold emitTable
  by_cases h : ls = "public"
  · simp [h]
  · simp [h]

/-- The catalog of a spec row. -/
theorem specRow_catalog (g : Run) (c : ColSpec) : (specRow g c).catalog = g.catalog := rfl

/-- The schema of a spec row. -/
theorem specRow_schema (g : Run) (c : ColSpec) : (specRow g c).schema = g.schema := rfl

/-- The table name of a spec row. -/
theorem specRow_name (g : Run) (c : ColSpec) : (specRow g c).name = g.tname := rfl

/-- A spec row is visible. -/
theorem specRow_hidden (g : Run) (c : ColSpec) : (specRow g c).hidden = false := rfl

/-- Consuming a block of visible rows that all carry the current grouping key
only extends the pending column list, in input order. -/
theorem extractTablesLoop_same_key (same : List ColRow) :
    ∀ (rest : List ColRow) (lc ls ln : String) (tb : List tableRef)
      (cc : List ColumnTableDef),
      (∀ r ∈ same, r.catalog = lc ∧ r.schema = ls ∧ r.name = ln ∧ r.hidden = false) →
      extractTablesLoop (same ++ rest) false lc ls ln tb cc =
        extractTablesLoop rest false lc ls ln tb (cc ++ same.map mkColumn) := by
  induction same with
  | nil =>
    intro rest lc ls ln tb cc _
    simp
  | cons r tl ih =>
    intro rest lc ls ln tb cc h
    obtain ⟨hc, hs, hn, hh⟩ := h r (List.mem_cons_self r tl)
    have htl : ∀ r2 ∈ tl,
        r2.catalog = lc ∧ r2.schema = ls ∧ r2.name = ln ∧ r2.hidden = false :=
      fun r2 h2 => h r2 (List.mem_cons_of_mem r h2)
    subst hc hs hn
    simp only [List.cons_append, extractTablesLoop, hh, Bool.false_eq_true, if_false,
      List.append_eq]
    rw [if_neg (by simp)]
    rw [ih rest r.catalog r.schema r.name tb (cc ++ [mkColumn r]) htl]
    simp

/-- The run invariant of the grouping loop: with the pending group's key
different from the first remaining run's key, processing the remaining runs
first flushes the pending group and then emits one `tableRef` per run whose
schema is `public`. -/
theorem extractTablesLoop_runs (runs : List Run) :
    ∀ (lc ls ln : String) (tb : List tableRef) (cc : List ColumnTableDef),
      (∀ g ∈ runs, g.cols ≠ []) →
      List.Chain' (fun a b => Run.key a ≠ Run.key b) runs →
      (∀ g ∈ runs.head?, (lc, ls, ln) ≠ Run.key g) →
      extractTablesLoop (runsRows runs) false lc ls ln tb cc =
        emitTable lc ls ln cc tb ++
          (runs.filter (fun g => g.schema == "public")).map runTable := by
  induction runs with
  | nil =>
    intro lc ls ln tb cc _ _ _
    simp [runsRows, extractTablesLoop]
  | cons g rest ih =>
    intro lc ls ln tb cc hne hchain hhead
    have hkey : (lc, ls, ln) ≠ Run.key g := hhead g (by simp)
    obtain ⟨hhr, hcr⟩ := List.chain'_cons'.mp hchain
    have hgc : g.cols ≠ [] := hne g (by simp)
    obtain ⟨c0, ctl, hcols⟩ := List.exists_cons_of_ne_nil hgc
    have hkey2 : lc ≠ g.catalog ∨ ls ≠ g.schema ∨ ln ≠ g.tname := by
      by_contra hcon
      push_neg at hcon
      exact hkey (by simp [Run.key, hcon.1, hcon.2.1, hcon.2.2])
    have hrows : runsRows (g :: rest) =
        specRow g c0 :: ((ctl.map (specRow g)) ++ runsRows rest) := by
      simp [runsRows, Run.rows, hcols]
    rw [hrows]
    simp only [extractTablesLoop, specRow_hidden, specRow_catalog, specRow_schema,
      specRow_name, Bool.false_eq_true, if_false]
    rw [if_pos hkey2]
    rw [extractTablesLoop_same_key (ctl.map (specRow g)) (runsRows rest)
      g.catalog g.schema g.tname
      (emitTable lc ls ln cc tb) [mkColumn (specRow g c0)]
      (by
        intro r2 h2
        obtain ⟨c, _, rfl⟩ := List.mem_map.mp h2
        simp [specRow])]
    rw [ih g.catalog g.schema g.tname
      (emitTable lc ls ln cc tb)
      ([mkColumn (specRow g c0)] ++ (ctl.map (specRow g)).map mkColumn)
      (fun g2 h2 => hne g2 (List.mem_cons_of_mem g h2)) hcr
      (by
        intro g2 h2
        have := hhr g2 h2
        simpa [Run.key] using this)]
    have hgcols : [mkColumn (specRow g c0)] ++ (ctl.map (specRow g)).map mkColumn =
        (runTable g).Columns := by
      simp [runTable, hcols, List.map_map, Function.comp]
    rw [hgcols]
    have hemit : emitTable g.catalog g.schema g.tname (runTable g).Columns
        (emitTable lc ls ln cc tb) =
        emitTable lc ls ln cc tb ++
          (if g.schema = "public" then [runTable g] else []) := by
      rw [emitTable_eq]
      by_cases hpub : g.schema = "public"
      · simp [hpub, runTable]
      · simp [hpub]
    rw [hemit, List.filter_cons]
    by_cases hpub : g.schema = "public"
    · simp [hpub, List.append_assoc]
    · simp [hpub]

/-- C4 (amended): on a row stream that is the concatenation of nonempty
contiguous runs with distinct adjacent keys and no hidden rows, the Row
Grouper emits exactly one `tableRef` per run whose schema is `public`, in
order, with each table's columns equal to its run's rows in input order; in
particular it emits exactly N tables when every run's schema is `public`,
fewer when some runs belong to other schemas, the final pending run is
emitted, and an empty input yields an empty table list. -/
theorem extractTables_groups_runs (runs : List Run)
    (hne : ∀ g ∈ runs, g.cols ≠ [])
    (hchain : List.Chain' (fun a b => Run.key a ≠ Run.key b) runs) :
    extractTablesRows (runsRows runs) =
      (runs.filter (fun g => g.schema == "public")).map runTable ∧
    ((∀ g ∈ runs, g.schema = "public") →
      (extractTablesRows (runsRows runs)).length = runs.length) ∧
    extractTablesRows [] = [] := by
  have hmain : extractTablesRows (runsRows runs) =
      (runs.filter (fun g => g.schema == "public")).map runTable := by
    cases runs with
    | nil => rfl
    | cons g rest =>
      obtain ⟨hhr, hcr⟩ := List.chain'_cons'.mp hchain
      have hgc : g.cols ≠ [] := hne g (by simp)
      obtain ⟨c0, ctl, hcols⟩ := List.exists_cons_of_ne_nil hgc
      have hrows : runsRows (g :: rest) =
          specRow g c0 :: ((ctl.map (specRow g)) ++ runsRows rest) := by
        simp [runsRows, Run.rows, hcols]
      unfold extractTablesRows
      rw [hrows]
      simp only [extractTablesLoop, specRow_hidden, specRow_catalog, specRow_schema,
        specRow_name, Bool.false_eq_true, if_false, if_true]
      rw [if_neg (by simp), List.nil_append]
      rw [extractTablesLoop_same_key (ctl.map (specRow g)) (runsRows rest)
        g.catalog g.schema g.tname [] [mkColumn (specRow g c0)]
        (by
          intro r2 h2
          obtain ⟨c, _, rfl⟩ := List.mem_map.mp h2
          simp [specRow])]
      rw [extractTablesLoop_runs rest g.catalog g.schema g.tname []
        ([mkColumn (specRow g c0)] ++ (ctl.map (specRow g)).map mkColumn)
        (fun g2 h2 => hne g2 (List.mem_cons_of_mem g h2)) hcr
        (by
          intro g2 h2
          have := hhr g2 h2
          simpa [Run.key] using this)]
      have hgcols : [mkColumn (specRow g c0)] ++ (ctl.map (specRow g)).map mkColumn =
          (runTable g).Columns := by
        simp [runTable, hcols, List.map_map, Function.comp]
      rw [hgcols, emitTable_eq, List.filter_cons]
      by_cases hpub : g.schema = "public"
      · simp [hpub, runTable]
      · simp [hpub]
  refine ⟨hmain, ?_, rfl⟩
  intro hall
  rw [hmain, List.length_map, List.filter_eq_self.mpr]
  intro g hg
  simpa using hall g hg

/-- A hidden `public` row, forming a single one-row run on its own. -/
def hiddenRunRow : ColRow :=
  { catalog := "db", schema := "public", name := "th", col := "a", typ := "int4"
    computed := false, nullable := false, hidden := true }

/-- C4 (counterexample): the claim fails on inputs containing hidden rows.
The input `[hiddenRunRow]` is one contiguous run (N = 1) whose schema is
`public`, yet the Row Grouper emits zero `tableRef`, not one. -/
theorem extractTables_hidden_run_counterexample :
    hiddenRunRow.schema = "public" ∧
    extractTablesRows [hiddenRunRow] = [] ∧
    (extractTablesRows [hiddenRunRow]).length ≠ 1 := by
  refine ⟨rfl, rfl, by decide⟩

/-- Two concrete runs: a `public` table `t1` and a non-public table `t2`. -/
def runT1 : Run :=
  { catalog := "db", schema := "public", tname := "t1"
    cols := [{ col := "a", typ := "int4", computed := false, nullable := true }] }

/-- A run in schema `s2` (not the target schema). -/
def runT2 : Run :=
  { catalog := "db", schema := "s2", tname := "t2"
    cols := [{ col := "b", typ := "text", computed := false, nullable := false }] }

/-- Witness for `extractTables_groups_runs`: on the two concrete runs, only
the `public` one is emitted. -/
theorem extractTables_groups_runs_witness :
    extractTablesRows (runsRows [runT1, runT2]) = [runTable runT1] := by
  have h := (extractTables_groups_runs [runT1, runT2]
    (by decide) (by rw [List.chain'_pair]; decide)).1
  rw [h]
  rfl

/- ## Bridging lemmas: Except-level loops on fully decodable rows -/

/-- On rows that all decode, the Except-level grouping loop agrees with the
pure one. -/
theorem extractTablesLoopE_ok (rows : List ColRow) :
    ∀ (ft : Bool) (lc ls ln : String) (tb : List tableRef) (cc : List ColumnTableDef),
      extractTablesLoopE (rows.map Except.ok) ft lc ls ln tb cc =
        .ok (extractTablesLoop rows ft lc ls ln tb cc) := by
  induction rows with
  | nil => intro ft lc ls ln tb cc; rfl
  | cons r rest ih =>
    intro ft lc ls ln tb cc
    by_cases hr : r.hidden = true
    · simp only [List.map_cons, extractTablesLoopE, extractTablesLoop, hr, if_true]
      exact ih ..
    · have hr' : r.hidden = false := by simpa using hr
      simp only [List.map_cons, extractTablesLoopE, extractTablesLoop, hr',
        Bool.false_eq_true, if_false]
      split <;> split <;> exact ih ..

/-- On rows that all decode, the Except-level index row loop agrees with the
pure one. -/
theorem extractIndexesRowsLoop_ok (tbl : TableName) (rows : List IdxRow) :
    ∀ acc, extractIndexesRowsLoop tbl (rows.map Except.ok) acc =
      .ok (buildIndexesLoop tbl rows acc) := by
  induction rows with
  | nil => intro acc; rfl
  | cons r rest ih =>
    intro acc
    simp only [List.map_cons, extractIndexesRowsLoop, buildIndexesLoop]
    exact ih ..

/- ## Index key/storing partition (C5) -/

/-- The key columns an index accumulates from a row block: the non-storing
rows, in arrival order, with `direction = ascending` iff `isAscending`. -/
def keyElems (rows : List IdxRow) : List IndexElem :=
  (rows.filter (fun r => !r.storing)).map
    (fun r => { Column := r.col
                Direction := if r.ascending then Direction.ascending
                             else Direction.descending })

/-- The storing columns an index accumulates from a row block: the storing
rows' column names, in arrival order. -/
def storingCols (rows : List IdxRow) : List String :=
  (rows.filter (fun r => r.storing)).map (fun r => r.col)

/-- A name is a key-column name iff some non-storing row carries it. -/
theorem mem_keyElems_iff (rows : List IdxRow) (n : String) :
    (∃ e ∈ keyElems rows, e.Column = n) ↔
      ∃ r ∈ rows, r.storing = false ∧ r.col = n := by
  simp only [keyElems, List.mem_map, List.mem_filter, Bool.not_eq_true']
  constructor
  · rintro ⟨e, ⟨r, ⟨hr, hs⟩, rfl⟩, hn⟩
    exact ⟨r, hr, hs, hn⟩
  · rintro ⟨r, hr, hs, hn⟩
    exact ⟨_, ⟨r, ⟨hr, hs⟩, rfl⟩, hn⟩

/-- A name is a storing-column name iff some storing row carries it. -/
theorem mem_storingCols_iff (rows : List IdxRow) (n : String) :
    n ∈ storingCols rows ↔ ∃ r ∈ rows, r.storing = true ∧ r.col = n := by
  simp only [storingCols, List.mem_map, List.mem_filter]
  constructor
  · rintro ⟨r, ⟨hr, hs⟩, hn⟩
    exact ⟨r, hr, hs, hn⟩
  · rintro ⟨r, hr, hs, hn⟩
    exact ⟨r, ⟨hr, hs⟩, hn⟩

/-- Folding a block of rows that all belong to index `i` over a catalog that
already holds exactly `i` extends that one entry by the block's key and
storing columns. -/
theorem buildIndexesLoop_single (tbl : TableName) (i : String) (rows : List IdxRow) :
    ∀ c : CreateIndex,
      (∀ r ∈ rows, r.idx = i) →
      buildIndexesLoop tbl rows [(i, c)] =
        [(i, { c with Columns := c.Columns ++ keyElems rows
                      Storing := c.Storing ++ storingCols rows })] := by
  induction rows with
  | nil =>
    intro c _
    simp [buildIndexesLoop, keyElems, storingCols]
  | cons r tl ih =>
    intro c h
    have hr : r.idx = i := h r (List.mem_cons_self r tl)
    have htl : ∀ r2 ∈ tl, r2.idx = i := fun r2 h2 => h r2 (List.mem_cons_of_mem r h2)
    simp only [buildIndexesLoop]
    by_cases hs : r.storing
    · have hstep : indexRowStep tbl [(i, c)] r =
          [(i, { c with Storing := c.Storing ++ [r.col] })] := by
        simp [indexRowStep, assocGet, assocSet, hr, hs]
      rw [hstep, ih _ htl]
      simp [keyElems, storingCols, List.filter_cons, hs, List.append_assoc]
    · have hs' : r.storing = false := by simpa using hs
      have hstep : indexRowStep tbl [(i, c)] r =
          [(i, { c with Columns := c.Columns ++
            [{ Column := r.col
               Direction := if r.ascending then Direction.ascending
                            else Direction.descending }] })] := by
        simp [indexRowStep, assocGet, assocSet, hr, hs']
      rw [hstep, ih _ htl]
      simp [keyElems, storingCols, List.filter_cons, hs', List.append_assoc]

/-- C5 (amended): for a nonempty block of rows all belonging to one index
name, the built `CreateIndex` has exactly the non-storing rows as key columns
in arrival order with `isAscending = false` mapped to descending, exactly the
storing rows' names as storing columns, the union of both name sets equals
the input's column names, and — provided no column name occurs both with and
without the storing flag — the two sets are disjoint. -/
theorem index_key_storing_partition (tbl : TableName) (i : String) (rows : List IdxRow)
    (hall : ∀ r ∈ rows, r.idx = i) (hne : rows ≠ []) :
    ∃ c : CreateIndex,
      buildIndexesLoop tbl rows [] = [(i, c)] ∧
      c.Columns = keyElems rows ∧
      c.Storing = storingCols rows ∧
      (∀ n : String, ((∃ e ∈ c.Columns, e.Column = n) ∨ n ∈ c.Storing) ↔
        ∃ r ∈ rows, r.col = n) ∧
      ((∀ r ∈ rows, ∀ r2 ∈ rows, r.col = r2.col → r.storing = r2.storing) →
        ∀ n : String, ¬((∃ e ∈ c.Columns, e.Column = n) ∧ n ∈ c.Storing)) := by
  obtain ⟨r0, tl, rfl⟩ := List.exists_cons_of_ne_nil hne
  have hr0 : r0.idx = i := hall r0 (List.mem_cons_self r0 tl)
  have htl : ∀ r ∈ tl, r.idx = i := fun r h2 => hall r (List.mem_cons_of_mem r0 h2)
  have hkey : ∀ c : CreateIndex,
      c.Columns = keyElems (r0 :: tl) ∧ c.Storing = storingCols (r0 :: tl) →
      (∀ n : String, ((∃ e ∈ c.Columns, e.Column = n) ∨ n ∈ c.Storing) ↔
        ∃ r ∈ r0 :: tl, r.col = n) ∧
      ((∀ r ∈ r0 :: tl, ∀ r2 ∈ r0 :: tl, r.col = r2.col → r.storing = r2.storing) →
        ∀ n : String, ¬((∃ e ∈ c.Columns, e.Column = n) ∧ n ∈ c.Storing)) := by
    rintro c ⟨hc, hst⟩
    constructor
    · intro n
      rw [hc, hst]
      constructor
      · rintro (h2 | h2)
        · obtain ⟨r, hrm, _, hn⟩ := (mem_keyElems_iff (r0 :: tl) n).mp h2
          exact ⟨r, hrm, hn⟩
        · obtain ⟨r, hrm, _, hn⟩ := (mem_storingCols_iff (r0 :: tl) n).mp h2
          exact ⟨r, hrm, hn⟩
      · rintro ⟨r, hrm, hn⟩
        by_cases hsr : r.storing
        · exact Or.inr ((mem_storingCols_iff (r0 :: tl) n).mpr ⟨r, hrm, hsr, hn⟩)
        · exact Or.inl ((mem_keyElems_iff (r0 :: tl) n).mpr
            ⟨r, hrm, by simpa using hsr, hn⟩)
    · rintro hcons n ⟨h2, h3⟩
      rw [hc] at h2
      rw [hst] at h3
      obtain ⟨r, hrm, hrs, hrn⟩ := (mem_keyElems_iff (r0 :: tl) n).mp h2
      obtain ⟨r2, hrm2, hrs2, hrn2⟩ := (mem_storingCols_iff (r0 :: tl) n).mp h3
      have hsame := hcons r hrm r2 hrm2 (hrn.trans hrn2.symm)
      rw [hrs, hrs2] at hsame
      exact absurd hsame (by simp)
  by_cases hs0 : r0.storing
  · have hstep : indexRowStep tbl [] r0 =
        [(i, { Name := i, Table := tbl, Columns := [], Storing := [r0.col] })] := by
      simp [indexRowStep, assocGet, assocSet, hr0, hs0]
    have hbuild : buildIndexesLoop tbl (r0 :: tl) [] =
        [(i, { Name := i, Table := tbl, Columns := keyElems (r0 :: tl)
               Storing := storingCols (r0 :: tl) })] := by
      simp only [buildIndexesLoop, hstep]
      rw [buildIndexesLoop_single tbl i tl _ htl]
      simp [keyElems, storingCols, List.filter_cons, hs0]
    exact ⟨_, hbuild, rfl, rfl, (hkey _ ⟨rfl, rfl⟩).1, (hkey _ ⟨rfl, rfl⟩).2⟩
  · have hs0' : r0.storing = false := by simpa using hs0
    have hstep : indexRowStep tbl [] r0 =
        [(i, { Name := i, Table := tbl
               Columns := [{ Column := r0.col
                             Direction := if r0.ascending then Direction.ascending
                                          else Direction.descending }]
               Storing := [] })] := by
      simp [indexRowStep, assocGet, assocSet, hr0, hs0']
    have hbuild : buildIndexesLoop tbl (r0 :: tl) [] =
        [(i, { Name := i, Table := tbl, Columns := keyElems (r0 :: tl)
               Storing := storingCols (r0 :: tl) })] := by
      simp only [buildIndexesLoop, hstep]
      rw [buildIndexesLoop_single tbl i tl _ htl]
      simp [keyElems, storingCols, List.filter_cons, hs0']
    exact ⟨_, hbuild, rfl, rfl, (hkey _ ⟨rfl, rfl⟩).1, (hkey _ ⟨rfl, rfl⟩).2⟩

/-- Rows for one index in which one column name occurs both as key and as
storing column. -/
def idxRowsOverlap : List IdxRow :=
  [{ idx := "i1", col := "a", storing := false, ascending := true },
   { idx := "i1", col := "a", storing := true, ascending := true }]

/-- C5 (counterexample): on a row block for one index where a column name
appears both with and without the storing flag, the built index has that name
in `keyColumns` AND in `storingColumns` — the claimed no-overlap fails. -/
theorem index_partition_overlap_counterexample :
    (∀ r ∈ idxRowsOverlap, r.idx = "i1") ∧
    (∃ e ∈ ((buildIndexesLoop tableNameT1 idxRowsOverlap []).headD
        ("", createIndexDflt)).2.Columns, e.Column = "a") ∧
    "a" ∈ ((buildIndexesLoop tableNameT1 idxRowsOverlap []).headD
        ("", createIndexDflt)).2.Storing := by
  refine ⟨by decide, by decide, by decide⟩

/-- The spec's concrete scenario: key row `("idx1","a",false,true)` and
storing row `("idx1","b",true,false)`. -/
def idxRowsGood : List IdxRow :=
  [{ idx := "idx1", col := "a", storing := false, ascending := true },
   { idx := "idx1", col := "b", storing := true, ascending := false }]

/-- Witness for `index_key_storing_partition` on the spec's concrete
scenario. -/
theorem index_key_storing_partition_witness :
    ∃ c : CreateIndex,
      buildIndexesLoop tableNameT1 idxRowsGood [] = [("idx1", c)] ∧
      c.Columns = keyElems idxRowsGood ∧
      c.Storing = storingCols idxRowsGood ∧
      (∀ n : String, ((∃ e ∈ c.Columns, e.Column = n) ∨ n ∈ c.Storing) ↔
        ∃ r ∈ idxRowsGood, r.col = n) ∧
      ((∀ r ∈ idxRowsGood, ∀ r2 ∈ idxRowsGood, r.col = r2.col → r.storing = r2.storing) →
        ∀ n : String, ¬((∃ e ∈ c.Columns, e.Column = n) ∧ n ∈ c.Storing)) :=
  index_key_storing_partition tableNameT1 "idx1" idxRowsGood (by decide) (by decide)

/- ## Per-table catalog characterisation (C3) -/

/-- Lookup after insert/overwrite. -/
theorem assocGet_assocSet {α β : Type} [DecidableEq α] (l : List (α × β)) (k k2 : α)
    (v : β) :
    assocGet (assocSet l k v) k2 = if k = k2 then some v else assocGet l k2 := by
  induction l with
  | nil => simp [assocSet, assocGet]
  | cons p rest ih =>
    obtain ⟨k0, v0⟩ := p
    by_cases h : k0 = k
    · subst h
      simp only [assocSet, if_pos rfl, assocGet]
      by_cases h2 : k0 = k2 <;> simp [h2]
    · simp only [assocSet, if_neg h, assocGet, ih]
      by_cases h2 : k0 = k2
      · subst h2
        rw [if_pos rfl, if_neg (fun hk => h hk.symm), if_pos rfl]
      · rw [if_neg h2, if_neg h2]

/-- Decode a list of per-row results, failing if any row fails. -/
def decodeRows : List (Except String IdxRow) → Option (List IdxRow)
  | [] => some []
  | .error _ :: _ => none
  | .ok r :: rest => (decodeRows rest).map (fun l => r :: l)

/-- The catalog entry a table's (successful) index query produces. -/
def idxValue (q : TableName → Except String (List (Except String IdxRow)))
    (k : TableName) : List (String × CreateIndex) :=
  match q k with
  | .error _ => []
  | .ok rs =>
    match decodeRows rs with
    | none => []
    | some rows => buildIndexesLoop k rows []

/-- A successful inner row loop means every row decoded, and the result is
the pure fold of the decoded rows. -/
theorem extractIndexesRowsLoop_ok_decode (tbl : TableName)
    (rows : List (Except String IdxRow)) :
    ∀ acc res, extractIndexesRowsLoop tbl rows acc = .ok res →
      ∃ rows2, decodeRows rows = some rows2 ∧ res = buildIndexesLoop tbl rows2 acc := by
  induction rows with
  | nil =>
    intro acc res h
    have hres : acc = res := by simpa [extractIndexesRowsLoop] using h
    exact ⟨[], rfl, hres.symm⟩
  | cons x rest ih =>
    intro acc res h
    cases x with
    | error e => simp [extractIndexesRowsLoop] at h
    | ok r =>
      have h2 : extractIndexesRowsLoop tbl rest (indexRowStep tbl acc r) = .ok res := h
      obtain ⟨rows2, hdec, hres⟩ := ih (indexRowStep tbl acc r) res h2
      exact ⟨r :: rows2, by simp [decodeRows, hdec], by simpa [buildIndexesLoop] using hres⟩

/-- Characterisation of a successful `extractIndexes` run: the result's entry
at any key is the key's own query value when some queried table has that key,
and the accumulator's entry otherwise. -/
theorem extractIndexesGo_ok_lookup
    (q : TableName → Except String (List (Except String IdxRow)))
    (ts : List tableRef) :
    ∀ acc ret, extractIndexesGo q ts acc = .ok ret →
      ∀ k : TableName,
        assocGet ret k =
          if ∃ t ∈ ts, t.TableName = k then some (idxValue q k) else assocGet acc k := by
  induction ts with
  | nil =>
    intro acc ret h k
    have hret : acc = ret := by simpa [extractIndexesGo] using h
    subst hret
    simp
  | cons t rest ih =>
    intro acc ret h k
    cases hq : q t.TableName with
    | error e => simp [extractIndexesGo, hq] at h
    | ok rows =>
      cases hloop : extractIndexesRowsLoop t.TableName rows [] with
      | error e => simp [extractIndexesGo, hq, hloop] at h
      | ok idxs =>
        have hgo : extractIndexesGo q rest (assocSet acc t.TableName idxs) = .ok ret := by
          simpa [extractIndexesGo, hq, hloop] using h
        have hval : idxs = idxValue q t.TableName := by
          obtain ⟨rows2, hdec, hres⟩ :=
            extractIndexesRowsLoop_ok_decode t.TableName rows [] idxs hloop
          simp [idxValue, hq, hdec, hres]
        have hlook := ih (assocSet acc t.TableName idxs) ret hgo k
        rw [assocGet_assocSet] at hlook
        by_cases hk : ∃ t2 ∈ rest, t2.TableName = k
        · rw [if_pos hk] at hlook
          rw [hlook]
          obtain ⟨t2, ht2, hk2⟩ := hk
          rw [if_pos ⟨t2, List.mem_cons_of_mem t ht2, hk2⟩]
        · rw [if_neg hk] at hlook
          by_cases hk2 : t.TableName = k
          · rw [if_pos hk2] at hlook
            rw [hlook, hval, hk2]
            rw [if_pos ⟨t, List.mem_cons_self t rest, hk2⟩]
          · rw [if_neg hk2] at hlook
            rw [hlook, if_neg ?hno]
            case hno =>
              rintro ⟨t2, ht2, hkt2⟩
              rcases List.mem_cons.mp ht2 with h3 | h3
              · exact hk2 (h3 ▸ hkt2)
              · exact hk ⟨t2, h3, hkt2⟩

/-- C3 (amended): on a successful `extractIndexes` call, every queried table
has an entry in the catalog, equal to the fold of its decoded rows; in
particular a table whose query yields zero rows has a present — and empty —
entry, not an absent one. -/
theorem extractIndexes_entry_per_table
    (q : TableName → Except String (List (Except String IdxRow)))
    (tables : List tableRef)
    (ret : List (TableName × List (String × CreateIndex)))
    (h : extractIndexes q tables = .ok ret) :
    ∀ t ∈ tables,
      assocGet ret t.TableName = some (idxValue q t.TableName) ∧
      (q t.TableName = .ok [] → assocGet ret t.TableName = some []) := by
  intro t ht
  have hlook := extractIndexesGo_ok_lookup q tables [] ret h t.TableName
  rw [if_pos ⟨t, ht, rfl⟩] at hlook
  refine ⟨hlook, fun hq => ?_⟩
  rw [hlook]
  simp [idxValue, hq, decodeRows, buildIndexesLoop]

/-- Witness for `extractIndexes_entry_per_table`: the zero-row table `t1`
has a present, empty entry. -/
theorem extractIndexes_entry_per_table_witness :
    assocGet [(tableNameT1, ([] : List (String × CreateIndex)))] tableNameT1 =
      some [] :=
  (extractIndexes_entry_per_table idxQueryEmpty [tableRefT1]
    [(tableNameT1, [])] rfl tableRefT1 (List.mem_cons_self tableRefT1 [])).2 rfl

/- ## Function catalog membership (C6) -/

/-- Structure equality of catalog entries, componentwise. -/
theorem function_eq_mk (f : function) (d : FunctionDefinition) (ov : Overload) :
    f = { fdef := d, overload := ov } ↔ f.fdef = d ∧ f.overload = ov := by
  cases f
  simp

/-- Membership after appending one element at one key of a total-function
map. -/
theorem mem_updFn_append {α β : Type} [DecidableEq α] (inner : α → List β)
    (key : α) (x : β) (k : α) (f : β) :
    f ∈ updFn inner key (inner key ++ [x]) k ↔ f ∈ inner k ∨ (k = key ∧ f = x) := by
  unfold updFn
  by_cases h : k = key
  · subst h
    simp
  · simp [h]

/-- Membership in the overload loop's result: either already present, or
generated by a surviving overload of this definition with the matching
return-type oid. -/
theorem functionsOvs_mem (d : FunctionDefinition) (anyNonArray : List Typ)
    (ovs : List Overload) :
    ∀ (inner : Nat → List function) (k : Nat) (f : function),
      f ∈ functionsOvs d anyNonArray ovs inner k ↔
        f ∈ inner k ∨
          (f.fdef = d ∧ f.overload ∈ ovs ∧
            strContains f.overload.Info "Not usable" = false ∧
            overloadTypeOK anyNonArray f.overload = true ∧
            k = f.overload.FixedReturnType.oid) := by
  induction ovs with
  | nil =>
    intro inner k f
    simp [functionsOvs]
  | cons ov rest ih =>
    intro inner k f
    by_cases h1 : strContains ov.Info "Not usable" = true
    · simp only [functionsOvs]
      rw [if_pos h1, ih]
      constructor
      · rintro (h | ⟨hf, hov, hc1, hc2, hk⟩)
        · exact Or.inl h
        · exact Or.inr ⟨hf, List.mem_cons_of_mem ov hov, hc1, hc2, hk⟩
      · rintro (h | ⟨hf, hov, hc1, hc2, hk⟩)
        · exact Or.inl h
        · rcases List.mem_cons.mp hov with hfo | hov2
          · rw [hfo] at hc1
            rw [hc1] at h1
            exact absurd h1 (by simp)
          · exact Or.inr ⟨hf, hov2, hc1, hc2, hk⟩
    · have h1' : ¬ strContains ov.Info "Not usable" = true := h1
      by_cases h2 : overloadTypeOK anyNonArray ov = true
      · simp only [functionsOvs]
        rw [if_neg h1', if_pos h2, ih, mem_updFn_append]
        constructor
        · rintro ((h | ⟨hk, hfx⟩) | ⟨hf, hov, hc1, hc2, hk⟩)
          · exact Or.inl h
          · obtain ⟨hfd, hfo⟩ := (function_eq_mk f d ov).mp hfx
            refine Or.inr ⟨hfd, ?_, ?_, ?_, ?_⟩
            · rw [hfo]
              exact List.mem_cons_self ov rest
            · rw [hfo]
              simpa using h1
            · rw [hfo]
              exact h2
            · rw [hfo]
              exact hk
          · exact Or.inr ⟨hf, List.mem_cons_of_mem ov hov, hc1, hc2, hk⟩
        · rintro (h | ⟨hf, hov, hc1, hc2, hk⟩)
          · exact Or.inl (Or.inl h)
          · rcases List.mem_cons.mp hov with hfo | hov2
            · refine Or.inl (Or.inr ⟨by rw [hk, hfo], ?_⟩)
              exact (function_eq_mk f d ov).mpr ⟨hf, hfo⟩
            · exact Or.inr ⟨hf, hov2, hc1, hc2, hk⟩
      · have h2' : overloadTypeOK anyNonArray ov = false := by simpa using h2
        simp only [functionsOvs]
        rw [if_neg h1', if_neg h2, ih]
        constructor
        · rintro (h | ⟨hf, hov, hc1, hc2, hk⟩)
          · exact Or.inl h
          · exact Or.inr ⟨hf, List.mem_cons_of_mem ov hov, hc1, hc2, hk⟩
        · rintro (h | ⟨hf, hov, hc1, hc2, hk⟩)
          · exact Or.inl h
          · rcases List.mem_cons.mp hov with hfo | hov2
            · rw [hfo] at hc2
              rw [hc2] at h2'
              exact absurd h2' (by simp)
            · exact Or.inr ⟨hf, hov2, hc1, hc2, hk⟩

/-- Membership in the definition loop's result: either already present, or
generated by a surviving definition and overload with matching class and
return-type oid. -/
theorem functionsDefs_mem (anyNonArray : List Typ) (defs : List FunctionDefinition) :
    ∀ (m : Nat → Nat → List function) (cls k : Nat) (f : function),
      f ∈ functionsDefs anyNonArray defs m cls k ↔
        f ∈ m cls k ∨
          (f.fdef ∈ defs ∧ f.fdef.Name ≠ "pg_sleep" ∧
            strContains f.fdef.Name "crdb_internal.force_" = false ∧
            f.fdef.Category ≠ "Compatibility" ∧ f.fdef.Private = false ∧
            f.overload ∈ f.fdef.Definition ∧
            strContains f.overload.Info "Not usable" = false ∧
            overloadTypeOK anyNonArray f.overload = true ∧
            cls = f.fdef.Class ∧ k = f.overload.FixedReturnType.oid) := by
  induction defs with
  | nil =>
    intro m cls k f
    simp [functionsDefs]
  | cons d rest ih =>
    intro m cls k f
    by_cases hn1 : d.Name = "pg_sleep"
    · simp only [functionsDefs]
      rw [if_pos hn1, ih]
      constructor
      · rintro (h | ⟨hmem, hB⟩)
        · exact Or.inl h
        · exact Or.inr ⟨List.mem_cons_of_mem d hmem, hB⟩
      · rintro (h | ⟨hmem, ha1, hB⟩)
        · exact Or.inl h
        · rcases List.mem_cons.mp hmem with hfd | hfd
          · rw [hfd, hn1] at ha1
            exact absurd rfl ha1
          · exact Or.inr ⟨hfd, ha1, hB⟩
    · simp only [functionsDefs]
      rw [if_neg hn1]
      by_cases hn2 : strContains d.Name "crdb_internal.force_" = true
      · rw [if_pos hn2, ih]
        constructor
        · rintro (h | ⟨hmem, hB⟩)
          · exact Or.inl h
          · exact Or.inr ⟨List.mem_cons_of_mem d hmem, hB⟩
        · rintro (h | ⟨hmem, ha1, ha2, hB⟩)
          · exact Or.inl h
          · rcases List.mem_cons.mp hmem with hfd | hfd
            · rw [hfd] at ha2
              rw [ha2] at hn2
              exact absurd hn2 (by simp)
            · exact Or.inr ⟨hfd, ha1, ha2, hB⟩
      · have hn2' : strContains d.Name "crdb_internal.force_" = false := by simpa using hn2
        rw [if_neg hn2]
        by_cases hn3 : d.Category = "Compatibility"
        · rw [if_pos hn3, ih]
          constructor
          · rintro (h | ⟨hmem, hB⟩)
            · exact Or.inl h
            · exact Or.inr ⟨List.mem_cons_of_mem d hmem, hB⟩
          · rintro (h | ⟨hmem, ha1, ha2, ha3, hB⟩)
            · exact Or.inl h
            · rcases List.mem_cons.mp hmem with hfd | hfd
              · rw [hfd, hn3] at ha3
                exact absurd rfl ha3
              · exact Or.inr ⟨hfd, ha1, ha2, ha3, hB⟩
        · rw [if_neg hn3]
          by_cases hn4 : d.Private = true
          · rw [if_pos hn4, ih]
            constructor
            · rintro (h | ⟨hmem, hB⟩)
              · exact Or.inl h
              · exact Or.inr ⟨List.mem_cons_of_mem d hmem, hB⟩
            · rintro (h | ⟨hmem, ha1, ha2, ha3, ha4, hB⟩)
              · exact Or.inl h
              · rcases List.mem_cons.mp hmem with hfd | hfd
                · rw [hfd] at ha4
                  rw [ha4] at hn4
                  exact absurd hn4 (by simp)
                · exact Or.inr ⟨hfd, ha1, ha2, ha3, ha4, hB⟩
          · have hn4' : d.Private = false := by simpa using hn4
            rw [if_neg hn4, ih]
            have hupd : f ∈ (updFn m d.Class
                (functionsOvs d anyNonArray d.Definition (m d.Class))) cls k ↔
                f ∈ m cls k ∨
                  (cls = d.Class ∧ f.fdef = d ∧ f.overload ∈ d.Definition ∧
                    strContains f.overload.Info "Not usable" = false ∧
                    overloadTypeOK anyNonArray f.overload = true ∧
                    k = f.overload.FixedReturnType.oid) := by
              unfold updFn
              by_cases hc : cls = d.Class
              · subst hc
                rw [if_pos rfl, functionsOvs_mem]
                constructor
                · rintro (h | hB)
                  · exact Or.inl h
                  · exact Or.inr ⟨rfl, hB⟩
                · rintro (h | ⟨_, hB⟩)
                  · exact Or.inl h
                  · exact Or.inr hB
              · rw [if_neg hc]
                constructor
                · exact fun h => Or.inl h
                · rintro (h | ⟨hcls, _⟩)
                  · exact h
                  · exact absurd hcls hc
            rw [hupd]
            constructor
            · rintro ((h | ⟨hcls, hfd, hov, hc1, hc2, hk⟩) | ⟨hmem, hB⟩)
              · exact Or.inl h
              · refine Or.inr ⟨?_, ?_, ?_, ?_, ?_, ?_, hc1, hc2, ?_, hk⟩
                · rw [hfd]
                  exact List.mem_cons_self d rest
                · rw [hfd]
                  exact hn1
                · rw [hfd]
                  exact hn2'
                · rw [hfd]
                  exact hn3
                · rw [hfd]
                  exact hn4'
                · rw [hfd]
                  exact hov
                · rw [hfd]
                  exact hcls
              · exact Or.inr ⟨List.mem_cons_of_mem d hmem, hB⟩
            · rintro (h | ⟨hmem, ha1, ha2, ha3, ha4, hov, hb1, hb2, hcls, hk⟩)
              · exact Or.inl (Or.inl h)
              · rcases List.mem_cons.mp hmem with hfd | hfd
                · rw [hfd] at hcls hov
                  exact Or.inl (Or.inr ⟨hcls, hfd, hov, hb1, hb2, hk⟩)
                · exact Or.inr ⟨hfd, ha1, ha2, ha3, ha4, hov, hb1, hb2, hcls, hk⟩

/-- C6: the function catalog's entries are exactly the surviving registry
overloads: an entry `f` is in the catalog at `(cls, k)` iff its definition is
registered, is not named `pg_sleep`, does not contain the internal force
marker, is not of category Compatibility, is not private, the overload
belongs to it, its documentation does not contain "Not usable", its fixed
return type's semantic category is in the allowed non-array set, `cls` is the
definition's class and `k` the return type's oid. -/
theorem functions_catalog_characterisation (defs : List FunctionDefinition)
    (anyNonArray : List Typ) (cls k : Nat) (f : function) :
    f ∈ functions defs anyNonArray cls k ↔
      (f.fdef ∈ defs ∧ f.fdef.Name ≠ "pg_sleep" ∧
        strContains f.fdef.Name "crdb_internal.force_" = false ∧
        f.fdef.Category ≠ "Compatibility" ∧ f.fdef.Private = false ∧
        f.overload ∈ f.fdef.Definition ∧
        strContains f.overload.Info "Not usable" = false ∧
        (∃ t ∈ anyNonArray,
          f.overload.FixedReturnType.SemanticType = t.SemanticType) ∧
        cls = f.fdef.Class ∧ k = f.overload.FixedReturnType.oid) := by
  unfold functions
  rw [functionsDefs_mem]
  simp only [List.not_mem_nil, false_or]
  constructor
  · rintro ⟨hmem, ha1, ha2, ha3, ha4, hov, hb1, hb2, hcls, hk⟩
    refine ⟨hmem, ha1, ha2, ha3, ha4, hov, hb1, ?_, hcls, hk⟩
    simpa [overloadTypeOK, List.any_eq_true] using hb2
  · rintro ⟨hmem, ha1, ha2, ha3, ha4, hov, hb1, hb2, hcls, hk⟩
    refine ⟨hmem, ha1, ha2, ha3, ha4, hov, hb1, ?_, hcls, hk⟩
    simpa [overloadTypeOK, List.any_eq_true] using hb2

end SqlSmith
